import Mathlib

/-!
Verification of the ER route tracker's coordinate transformation engine and
streaming delivery pipeline.

Shallow embedding conventions:
* `f32` coordinates are modelled as exact rationals (`ℚ`); every property
  checked here depends only on the algebraic form of the arithmetic.
* `u8`/`u32` values are modelled as `ℕ`, with masking (`&&& 0xFF`) written
  explicitly where the code extracts bytes.
* `HashMap<(u8,u8,u8), Vec<Anchor>>` is modelled as a flat association list of
  keyed anchors; the list order fixes both the per-key `Vec` order and the
  map's iteration order.
-/

deriving instance DecidableEq for Except

namespace ERRoute

/-- A position `(x, y, z)`; the Rust code uses `(f32, f32, f32)`. -/
abbrev Pos : Type := ℚ × ℚ × ℚ

/-- A tile key `(area_no, grid_x, grid_z)`; the Rust code uses `(u8, u8, u8)`. -/
abbrev TileKey : Type := ℕ × ℕ × ℕ

/-- An anchor point for coordinate transformation (`struct Anchor`). -/
structure Anchor where
  src_pos : Pos
  dst_area_no : ℕ
  dst_grid_x : ℕ
  dst_grid_z : ℕ
  dst_pos : Pos
  deriving DecidableEq, Repr

/-- Pre-computed path from a tile to a global map (`struct PathToGlobalMap`).
Each Rust `PathStep` wraps exactly one `Anchor`, so the steps are modelled as
the list of those anchors. -/
structure PathToGlobalMap where
  steps : List Anchor
  final_global_tile : TileKey
  deriving DecidableEq, Repr

/-- Error type for coordinate transformation (`enum TransformError`). -/
inductive TransformError where
  | UnknownMap (id : String)
  | IoError (msg : String)
  deriving DecidableEq, Repr

/-- The anchor lookup table `HashMap<(u8,u8,u8), Vec<Anchor>>`, flattened. -/
abbrev AnchorMap : Type := List (TileKey × Anchor)

/-- The `Vec<Anchor>` stored under key `k` (`anchors.get(&k)`, with a missing
key giving the empty list). -/
def anchorsAt (m : AnchorMap) (k : TileKey) : List Anchor :=
  (m.filter (fun e => decide (e.1 = k))).map (fun e => e.2)

/-- `struct WorldPositionTransformer`. -/
structure WorldPositionTransformer where
  anchors : AnchorMap
  paths_to_global : List (TileKey × PathToGlobalMap)
  deriving DecidableEq

/-- `WorldPositionTransformer::empty`. -/
def WorldPositionTransformer.empty : WorldPositionTransformer :=
  { anchors := [], paths_to_global := [] }

/-- `paths_to_global.get(&key)` on the flattened association list. -/
def lookupPath (ps : List (TileKey × PathToGlobalMap)) (k : TileKey) :
    Option PathToGlobalMap :=
  (ps.find? (fun e => decide (e.1 = k))).map (fun e => e.2)

/-- `WorldPositionTransformer::parse_map_id`: unpack `0xWWXXYYDD`. -/
def parse_map_id (map_id : ℕ) : ℕ × ℕ × ℕ × ℕ :=
  ((map_id >>> 24) &&& 0xFF, (map_id >>> 16) &&& 0xFF,
   (map_id >>> 8) &&& 0xFF, map_id &&& 0xFF)

/-- Zero-padded two-digit decimal rendering (`{:02}`). -/
def pad2 (n : ℕ) : String :=
  if n < 10 then "0" ++ toString n else toString n

/-- `WorldPositionTransformer::format_map_id`: `"mWW_XX_YY_DD"`. -/
def format_map_id (map_id : ℕ) : String :=
  let p := parse_map_id map_id
  "m" ++ pad2 p.1 ++ "_" ++ pad2 p.2.1 ++ "_" ++ pad2 p.2.2.1 ++ "_" ++ pad2 p.2.2.2

/-- `WorldPositionTransformer::apply_anchor_and_convert_to_global`. -/
def apply_anchor_and_convert_to_global (x y z : ℚ) (anchor : Anchor) : Pos :=
  let local_x := x - anchor.src_pos.1 + anchor.dst_pos.1
  let local_y := y - anchor.src_pos.2.1 + anchor.dst_pos.2.1
  let local_z := z - anchor.src_pos.2.2 + anchor.dst_pos.2.2
  (local_x + (anchor.dst_grid_x : ℚ) * 256, local_y,
   local_z + (anchor.dst_grid_z : ℚ) * 256)

/-- One iteration of the `for step in &path.steps` loop of
`apply_path_to_global`. -/
def translate_step (p : Pos) (anchor : Anchor) : Pos :=
  (p.1 - anchor.src_pos.1 + anchor.dst_pos.1,
   p.2.1 - anchor.src_pos.2.1 + anchor.dst_pos.2.1,
   p.2.2 - anchor.src_pos.2.2 + anchor.dst_pos.2.2)

/-- `WorldPositionTransformer::apply_path_to_global`. -/
def apply_path_to_global (x y z : ℚ) (path : PathToGlobalMap) : Pos :=
  let c := path.steps.foldl translate_step (x, y, z)
  (c.1 + (path.final_global_tile.2.1 : ℚ) * 256, c.2.1,
   c.2.2 + (path.final_global_tile.2.2 : ℚ) * 256)

/-- `WorldPositionTransformer::local_to_world_with_global_map`. -/
def local_to_world_with_global_map (t : WorldPositionTransformer) (map_id : ℕ)
    (x y z : ℚ) : Except TransformError (ℚ × ℚ × ℚ × ℕ) :=
  let pm := parse_map_id map_id
  let area_no := pm.1
  let grid_x := pm.2.1
  let grid_z := pm.2.2.1
  if area_no = 60 ∨ area_no = 61 then
    .ok (x + (grid_x : ℚ) * 256, y, z + (grid_z : ℚ) * 256, area_no)
  else
    let key : TileKey := (area_no, grid_x, grid_z)
    let anchor_list := anchorsAt t.anchors key
    match anchor_list.find? (fun a => decide (a.dst_area_no = 60)) with
    | some anchor =>
      let g := apply_anchor_and_convert_to_global x y z anchor
      .ok (g.1, g.2.1, g.2.2, 60)
    | none =>
      match anchor_list.find? (fun a => decide (a.dst_area_no = 61)) with
      | some anchor =>
        let g := apply_anchor_and_convert_to_global x y z anchor
        .ok (g.1, g.2.1, g.2.2, 61)
      | none =>
        match lookupPath t.paths_to_global key with
        | some path =>
          let g := apply_path_to_global x y z path
          .ok (g.1, g.2.1, g.2.2, path.final_global_tile.1)
        | none => .error (.UnknownMap (format_map_id map_id))

/-- `WorldPositionTransformer::local_to_world_first`. -/
def local_to_world_first (t : WorldPositionTransformer) (map_id : ℕ)
    (x y z : ℚ) : Except TransformError (ℚ × ℚ × ℚ) :=
  (local_to_world_with_global_map t map_id x y z).map
    (fun r => (r.1, r.2.1, r.2.2.1))

/-- The destination tile key of an anchor
(`(anchor.dst_area_no, anchor.dst_grid_x, anchor.dst_grid_z)`). -/
def dstKey (a : Anchor) : TileKey := (a.dst_area_no, a.dst_grid_x, a.dst_grid_z)

/-- `WorldPositionTransformer::positions_equal` with `EPSILON = 0.001`
(modelled as the exact rational `1/1000`). -/
def positions_equal (a b : Pos) : Bool :=
  decide (|a.1 - b.1| < (1 : ℚ)/1000) &&
  decide (|a.2.1 - b.2.1| < (1 : ℚ)/1000) &&
  decide (|a.2.2 - b.2.2| < (1 : ℚ)/1000)

/-- The inverse anchor synthesized from a keyed anchor: keyed at the original
destination, with source and destination data swapped (`add_inverse_anchors`,
first loop body). -/
def invertEdge (e : TileKey × Anchor) : TileKey × Anchor :=
  (dstKey e.2,
   { src_pos := e.2.dst_pos, dst_area_no := e.1.1, dst_grid_x := e.1.2.1,
     dst_grid_z := e.1.2.2, dst_pos := e.2.src_pos })

/-- The closure of the duplicate check in `add_inverse_anchors`: an existing
anchor counts as a duplicate of the inverse when it has the same destination
tile and both positions are equal within tolerance. -/
def isDuplicateOf (existing inv : Anchor) : Bool :=
  decide (existing.dst_area_no = inv.dst_area_no) &&
  decide (existing.dst_grid_x = inv.dst_grid_x) &&
  decide (existing.dst_grid_z = inv.dst_grid_z) &&
  positions_equal existing.src_pos inv.src_pos &&
  positions_equal existing.dst_pos inv.dst_pos

/-- The `already_exists` check of `add_inverse_anchors`: scan the list stored
under the inverse's key. -/
def inverseExists (acc : AnchorMap) (key : TileKey) (inv : Anchor) : Bool :=
  (anchorsAt acc key).any fun existing => isDuplicateOf existing inv

/-- The second loop of `add_inverse_anchors`: add each synthesized inverse
unless the duplicate check finds it already present. -/
def insertInverses (acc : AnchorMap) : List (TileKey × Anchor) → AnchorMap
  | [] => acc
  | (key, inv) :: rest =>
    if inverseExists acc key inv then insertInverses acc rest
    else insertInverses (acc ++ [(key, inv)]) rest

/-- `WorldPositionTransformer::add_inverse_anchors`. -/
def add_inverse_anchors (anchors : AnchorMap) : AnchorMap :=
  insertInverses anchors (anchors.map invertEdge)

/-- All tiles that BFS can ever enqueue beyond the start: destinations of the
graph's edges.  Used only for the termination measure of the BFS loop. -/
def bfsCand (G : AnchorMap) : List TileKey := G.map (fun e => dstKey e.2)

/-- Number of candidate tiles not yet visited (termination measure helper). -/
def unvisitedCount (G : AnchorMap) (visited : List TileKey) : ℕ :=
  ((bfsCand G).filter (fun k => decide (k ∉ visited))).length

/-- The inner `for anchor in anchor_list` loop of `bfs_find_path_to_global`:
either returns a finished path (the early `return Some(...)`), or the updated
visited set together with the entries pushed at the back of the queue. -/
def bfsScan (path : List Anchor) :
    List Anchor → List TileKey → List (TileKey × List Anchor) →
    PathToGlobalMap ⊕ (List TileKey × List (TileKey × List Anchor))
  | [], visited, pushed => .inr (visited, pushed)
  | anchor :: rest, visited, pushed =>
    let next_tile := dstKey anchor
    let new_path := path ++ [anchor]
    if anchor.dst_area_no = 60 ∨ anchor.dst_area_no = 61 then
      .inl ⟨new_path, next_tile⟩
    else if next_tile ∈ visited then
      bfsScan path rest visited pushed
    else
      bfsScan path rest (visited ++ [next_tile]) (pushed ++ [(next_tile, new_path)])

/-- Monotonicity of the unvisited-candidate count (termination helper). -/
def unvisitedCount_append_le (G : AnchorMap) (visited extra : List TileKey) :
    unvisitedCount G (visited ++ extra) ≤ unvisitedCount G visited := by
  apply List.Sublist.length_le
  apply List.monotone_filter_right
  intro k hk
  simp only [decide_eq_true_eq] at hk ⊢
  intro hmem
  exact hk (List.mem_append_left _ hmem)

/-- Generic helper: marking a fresh listed element as visited strictly drops
the count of unvisited listed elements (termination helper). -/
def filter_not_mem_insert_lt (visited : List TileKey) (t : TileKey)
    (htv : t ∉ visited) :
    ∀ l : List TileKey, t ∈ l →
      (l.filter (fun k => decide (k ∉ visited ++ [t]))).length + 1 ≤
        (l.filter (fun k => decide (k ∉ visited))).length := by
  intro l
  induction l with
  | nil => intro h; cases h
  | cons c cs ih =>
    intro htc
    rw [List.filter_cons, List.filter_cons]
    have hmono : (cs.filter (fun k => decide (k ∉ visited ++ [t]))).length ≤
        (cs.filter (fun k => decide (k ∉ visited))).length := by
      apply List.Sublist.length_le
      apply List.monotone_filter_right
      intro k hk
      simp only [decide_eq_true_eq] at hk ⊢
      intro hmem
      exact hk (List.mem_append_left _ hmem)
    by_cases hct : c = t
    · subst hct
      have h₁ : (decide (c ∉ visited ++ [c])) = false := by simp
      have h₂ : (decide (c ∉ visited)) = true := by simpa using htv
      simp only [h₁, h₂, Bool.false_eq_true, if_false, if_true, List.length_cons]
      omega
    · have hmem : t ∈ cs := by
        rcases List.mem_cons.mp htc with h | h
        · exact absurd h.symm hct
        · exact h
      have := ih hmem
      by_cases hcv : c ∈ visited
      · have h₁ : (decide (c ∉ visited ++ [t])) = false := by simp [hcv]
        have h₂ : (decide (c ∉ visited)) = false := by simpa using hcv
        simp only [h₁, h₂, Bool.false_eq_true, if_false, if_true, List.length_cons]
        omega
      · have h₁ : (decide (c ∉ visited ++ [t])) = true := by simp [hcv, hct]
        have h₂ : (decide (c ∉ visited)) = true := by simpa using hcv
        simp only [h₁, h₂, Bool.false_eq_true, if_false, if_true, List.length_cons]
        omega

/-- Strict drop of the unvisited-candidate count when a fresh candidate tile
is inserted into the visited set (termination helper). -/
def unvisitedCount_insert_lt (G : AnchorMap) (visited : List TileKey)
    (t : TileKey) (htc : t ∈ bfsCand G) (htv : t ∉ visited) :
    unvisitedCount G (visited ++ [t]) + 1 ≤ unvisitedCount G visited :=
  filter_not_mem_insert_lt visited t htv (bfsCand G) htc

/-- The BFS measure never grows across the inner scan, counting the pushed
queue entries (termination helper). -/
def bfsScan_measure (G : AnchorMap) (path : List Anchor) :
    ∀ (as : List Anchor) (visited : List TileKey)
      (pushed : List (TileKey × List Anchor)),
      (∀ a ∈ as, dstKey a ∈ bfsCand G) →
      ∀ vp, bfsScan path as visited pushed = .inr vp →
      2 * unvisitedCount G vp.1 + vp.2.length ≤
        2 * unvisitedCount G visited + pushed.length := by
  intro as
  induction as with
  | nil =>
    intro visited pushed _ vp h
    simp only [bfsScan] at h
    cases h
    simp
  | cons a rest ih =>
    intro visited pushed hmem vp h
    simp only [bfsScan] at h
    split at h
    · cases h
    · split at h
      · have := ih visited pushed (fun a ha => hmem a (List.mem_cons_of_mem _ ha)) vp h
        exact this
      · have hd : dstKey a ∈ bfsCand G := hmem a (List.mem_cons_self _ _)
        have hlt := unvisitedCount_insert_lt G visited (dstKey a) hd (by assumption)
        have := ih (visited ++ [dstKey a]) (pushed ++ [(dstKey a, path ++ [a])])
          (fun a ha => hmem a (List.mem_cons_of_mem _ ha)) vp h
        simp only [List.length_append, List.length_cons, List.length_nil] at this ⊢
        omega

/-- Every anchor stored under a key has its destination among the BFS
candidates (termination helper). -/
def anchorsAt_dst_mem_bfsCand (G : AnchorMap) (k : TileKey) :
    ∀ a ∈ anchorsAt G k, dstKey a ∈ bfsCand G := by
  intro a ha
  unfold anchorsAt at ha
  rcases List.mem_map.mp ha with ⟨e, he, rfl⟩
  exact List.mem_map.mpr ⟨e, (List.mem_filter.mp he).1, rfl⟩

/-- The `while let Some((current_tile, path)) = queue.pop_front()` loop of
`bfs_find_path_to_global`. -/
def bfsLoop (G : AnchorMap) :
    List (TileKey × List Anchor) → List TileKey → Option PathToGlobalMap
  | [], _ => none
  | (current_tile, path) :: queueRest, visited =>
    match h : bfsScan path (anchorsAt G current_tile) visited [] with
    | .inl found => some found
    | .inr vp => bfsLoop G (queueRest ++ vp.2) vp.1
termination_by queue visited => 2 * unvisitedCount G visited + queue.length
decreasing_by
  have hm := bfsScan_measure G path (anchorsAt G current_tile) visited []
    (anchorsAt_dst_mem_bfsCand G current_tile) vp h
  simp only [List.length_nil, List.length_append, List.length_cons] at hm ⊢
  omega

/-- `WorldPositionTransformer::bfs_find_path_to_global`. -/
def bfs_find_path_to_global (start : TileKey) (anchors : AnchorMap) :
    Option PathToGlobalMap :=
  bfsLoop anchors [(start, [])] [start]

/-- `WorldPositionTransformer::precompute_paths_to_global`.  The `HashMap`
key iteration is modelled by deduplicating the flat list's keys in order. -/
def precompute_paths_to_global (anchors : AnchorMap) :
    List (TileKey × PathToGlobalMap) :=
  ((anchors.map Prod.fst).dedup).filterMap fun tile_key =>
    if tile_key.1 = 60 ∨ tile_key.1 = 61 then none
    else if (anchorsAt anchors tile_key).any
        (fun a => decide (a.dst_area_no = 60 ∨ a.dst_area_no = 61)) then none
    else (bfs_find_path_to_global tile_key anchors).map (fun p => (tile_key, p))

/-- A transformer whose path cache is precomputed from its anchor table, as
`from_csv` builds it after `add_inverse_anchors`. -/
def WorldPositionTransformer.ofAnchors (G : AnchorMap) : WorldPositionTransformer :=
  ⟨G, precompute_paths_to_global G⟩

/-- Rust `line.split(',')` (and `split('.')`), modelled on the line's
character list: split at every separator occurrence, keeping empty pieces. -/
def splitOnChar (sep : Char) : List Char → List (List Char)
  | [] => [[]]
  | c :: rest =>
    match splitOnChar sep rest with
    | [] => [[]]
    | f :: fs => if c = sep then [] :: f :: fs else (c :: f) :: fs

/-- ASCII whitespace recognizer backing the model of Rust `str::trim`. -/
def isSpaceChar (c : Char) : Bool :=
  c = ' ' || c = '\t' || c = '\n' || c = '\r'

/-- Rust `str::trim` on the field's character list (ASCII whitespace). -/
def trimChars (l : List Char) : List Char :=
  ((l.dropWhile isSpaceChar).reverse.dropWhile isSpaceChar).reverse

/-- Value of a non-empty all-digit character list, `none` otherwise. -/
def digitsVal (l : List Char) : Option ℕ :=
  if l.isEmpty then none
  else if l.all Char.isDigit then
    some (l.foldl (fun acc c => 10 * acc + (c.toNat - '0'.toNat)) 0)
  else none

/-- Rust `str::parse::<u8>`: optional `+` sign, ASCII digits, value within
`0..=255` (overflow is a parse error). -/
def parseU8 (l : List Char) : Option ℕ :=
  let body := match l with
    | '+' :: rest => rest
    | _ => l
  match digitsVal body with
  | some n => if n ≤ 255 then some n else none
  | none => none

/-- Rust `str::parse::<f32>` restricted to plain decimal notation (optional
sign, digits, optional fractional part) — the only forms this dataset's fields
take; the value is kept as an exact rational. -/
def parseF32 (l : List Char) : Option ℚ :=
  let core : List Char → Option ℚ := fun body =>
    match splitOnChar '.' body with
    | [ip] => (digitsVal ip).map (fun n => (n : ℚ))
    | [ip, fp] =>
      if ip.isEmpty && fp.isEmpty then none
      else
        match (if ip.isEmpty then some 0 else digitsVal ip),
              (if fp.isEmpty then some 0 else digitsVal fp) with
        | some n, some m => some ((n : ℚ) + (m : ℚ) / (10 : ℚ) ^ fp.length)
        | _, _ => none
    | _ => none
  match l with
  | '-' :: rest => (core rest).map Neg.neg
  | '+' :: rest => core rest
  | _ => core l

/-- How processing one data row can fail: `skipRow` models the `continue`
statements (malformed row silently dropped); `outOfBoundsPanic` models a Rust
panic from indexing `fields[i]` past the end of the field vector. -/
inductive RowError where
  | skipRow
  | outOfBoundsPanic
  deriving DecidableEq, Repr

/-- `fields[i].trim().parse::<u8>()` with the row-skipping `continue` on a
parse error; indexing past the end of `fields` panics. -/
def readU8Field (fields : List (List Char)) (i : ℕ) : Except RowError ℕ :=
  match fields[i]? with
  | none => .error .outOfBoundsPanic
  | some s =>
    match parseU8 (trimChars s) with
    | some v => .ok v
    | none => .error .skipRow

/-- `fields[i].trim().parse::<f32>()` with the row-skipping `continue` on a
parse error; indexing past the end of `fields` panics. -/
def readF32Field (fields : List (List Char)) (i : ℕ) : Except RowError ℚ :=
  match fields[i]? with
  | none => .error .outOfBoundsPanic
  | some s =>
    match parseF32 (trimChars s) with
    | some v => .ok v
    | none => .error .skipRow

/-- The per-row body of `WorldPositionTransformer::from_csv`: split on commas,
skip rows with fewer than 18 fields, then read the required columns in the
source's order. -/
def parse_csv_line (line : List Char) : Except RowError (TileKey × Anchor) :=
  let fields := splitOnChar ',' line
  if fields.length < 18 then .error .skipRow
  else do
    let src_area_no ← readU8Field fields 5
    let src_grid_x ← readU8Field fields 6
    let src_grid_z ← readU8Field fields 7
    let src_pos_x ← readF32Field fields 9
    let src_pos_y ← readF32Field fields 10
    let src_pos_z ← readF32Field fields 11
    let dst_area_no ← readU8Field fields 12
    let dst_grid_x ← readU8Field fields 13
    let dst_grid_z ← readU8Field fields 14
    let dst_pos_x ← readF32Field fields 16
    let dst_pos_y ← readF32Field fields 17
    let dst_pos_z ← readF32Field fields 18
    .ok ((src_area_no, src_grid_x, src_grid_z),
      { src_pos := (src_pos_x, src_pos_y, src_pos_z),
        dst_area_no := dst_area_no, dst_grid_x := dst_grid_x,
        dst_grid_z := dst_grid_z,
        dst_pos := (dst_pos_x, dst_pos_y, dst_pos_z) })

/-- The line loop of `from_csv`: skip the header line (index 0) and empty
lines, skip malformed rows, append parsed anchors under their source key; an
out-of-bounds panic aborts ingestion (the process would crash). -/
def ingest_rows : ℕ → List (List Char) → AnchorMap → Except RowError AnchorMap
  | _, [], acc => .ok acc
  | line_num, line :: rest, acc =>
    if line_num = 0 then ingest_rows (line_num + 1) rest acc
    else if (trimChars line).isEmpty then ingest_rows (line_num + 1) rest acc
    else
      match parse_csv_line line with
      | .ok e => ingest_rows (line_num + 1) rest (acc ++ [e])
      | .error .skipRow => ingest_rows (line_num + 1) rest acc
      | .error .outOfBoundsPanic => .error .outOfBoundsPanic

/-- `WorldPositionTransformer::from_csv` over the file's lines: ingest the
rows, synthesize inverse anchors, precompute paths to the global maps. -/
def from_csv (lines : List (List Char)) : Except RowError WorldPositionTransformer :=
  (ingest_rows 0 lines []).map fun parsed =>
    let anchors := add_inverse_anchors parsed
    ⟨anchors, precompute_paths_to_global anchors⟩

/-- What one network attempt of `send_batch` observes from `ureq`:
`Ok(response)` (carrying the status), `Err(Status(code, _))`, or
`Err(Transport(_))`. -/
inductive HttpAttemptResult where
  | response (status : ℕ)
  | statusError (code : ℕ)
  | transportError
  deriving DecidableEq, Repr

/-- Observable outcome of `send_batch` for one batch: whether it returned
having delivered (`success`), how many network attempts it made, and the
backoff sleeps (in milliseconds) it performed, in order. -/
structure SendOutcome where
  success : Bool
  attempts : ℕ
  sleeps_ms : List ℕ
  deriving DecidableEq, Repr

/-- The `for attempt in 0..max_retries` loop of `RealtimeClient::send_batch`,
run against a network oracle `net` giving each attempt's result.  A `200`
status returns success; a `401` status error returns immediately without
retrying; anything else falls through to the backoff sleep
(`100 * (attempt + 1)` ms, skipped after the last attempt) and the next
attempt.  Falling off the loop reports failure. -/
def send_batch_from (net : ℕ → HttpAttemptResult) (max_retries : ℕ)
    (attempt : ℕ) (sleeps : List ℕ) : SendOutcome :=
  if _h : attempt < max_retries then
    let retry : Unit → SendOutcome := fun _ =>
      let sleeps' := if attempt < max_retries - 1
        then sleeps ++ [100 * (attempt + 1)] else sleeps
      send_batch_from net max_retries (attempt + 1) sleeps'
    match net attempt with
    | .response status =>
      if status = 200 then ⟨true, attempt + 1, sleeps⟩ else retry ()
    | .statusError code =>
      if code = 401 then ⟨false, attempt + 1, sleeps⟩ else retry ()
    | .transportError => retry ()
  else ⟨false, attempt, sleeps⟩
termination_by max_retries - attempt
decreasing_by omega

/-- `RealtimeClient::send_batch` (the worker calls it with `max_retries = 3`). -/
def send_batch (net : ℕ → HttpAttemptResult) (max_retries : ℕ) : SendOutcome :=
  send_batch_from net max_retries 0 []

/-- An attempt outcome `send_batch` treats as retryable: a response whose
status is not exactly 200, a status error other than 401, or a transport
error. -/
def RetryableResult (r : HttpAttemptResult) : Prop :=
  (∃ st, r = .response st ∧ st ≠ 200) ∨
  (∃ c, r = .statusError c ∧ c ≠ 401) ∨
  r = .transportError

/-- Messages on the worker channel (`enum SenderMessage`). -/
inductive SenderMessage (α : Type) where
  | sendPoints (points : List α)
  | shutdown

/-- The `while pending_points.len() >= batch_size` loop of `sender_thread`
with `batch_size = 10`: repeatedly slice off the ten oldest points as one
dispatched batch. -/
def drainFullBatches {α : Type} (pending : List α) : List (List α) × List α :=
  if 10 ≤ pending.length then
    let rest := drainFullBatches (pending.drop 10)
    (pending.take 10 :: rest.1, rest.2)
  else ([], pending)
termination_by pending.length
decreasing_by simp; omega

/-- `RealtimeClient::sender_thread`, run over the channel's message backlog
(the producer's messages in order, `try_recv`/`recv_timeout` taking the next
one; an exhausted backlog behaves as a disconnected channel).  Returns the
batches handed to `send_batch`, in dispatch order. -/
def sender_thread {α : Type} :
    List (SenderMessage α) → List α → List (List α)
  | [], _pending => []
  | .shutdown :: _, pending =>
    if pending.isEmpty then [] else [pending]
  | .sendPoints ps :: rest, pending =>
    let pending₁ := pending ++ ps
    let dres := drainFullBatches pending₁
    if dres.2.isEmpty then
      match rest with
      | [] => dres.1
      | .sendPoints ps₂ :: rest₂ => dres.1 ++ sender_thread rest₂ ps₂
      | .shutdown :: _ => dres.1
    else
      match rest with
      | [] => dres.1
      | .sendPoints ps₂ :: rest₂ => dres.1 ++ sender_thread rest₂ (dres.2 ++ ps₂)
      | .shutdown :: _ => dres.1 ++ [dres.2]

/-- Concrete two-hop example graph, taken from the repository's own test
`test_local_to_world_with_path`: `m10_00` has a direct anchor into
`m60_40_35`, `m10_01` only reaches `m10_00`. -/
def exampleGraph : AnchorMap :=
  [((10, 0, 0), ⟨(0, 0, 0), 60, 40, 35, (100, 50, 100)⟩),
   ((10, 1, 0), ⟨(0, 0, 0), 10, 0, 0, (10, 5, 10)⟩)]

/-- The two-hop path BFS finds for `m10_01` in `exampleGraph`. -/
def examplePath : PathToGlobalMap :=
  ⟨[⟨(0, 0, 0), 10, 0, 0, (10, 5, 10)⟩, ⟨(0, 0, 0), 60, 40, 35, (100, 50, 100)⟩],
   (60, 40, 35)⟩

/-- `ChainFrom G k p t`: the anchor list `p` is a chain of consecutive graph
edges starting at tile `k` and ending at tile `t` — each anchor is stored
under the tile the chain has reached so far.  This is the specification-side
notion of a multi-hop transformation path through the anchor graph. -/
inductive ChainFrom (G : AnchorMap) : TileKey → List Anchor → TileKey → Prop
  | nil (k : TileKey) : ChainFrom G k [] k
  | cons {k t : TileKey} (a : Anchor) (ha : a ∈ anchorsAt G k)
      {rest : List Anchor} (h : ChainFrom G (dstKey a) rest t) :
      ChainFrom G k (a :: rest) t

/-- A chain from `k` that reaches a global frame: nonempty, ending at a tile
whose area number is 60 or 61 (equivalently, its last edge's destination area
is 60 or 61). -/
def GlobalChain (G : AnchorMap) (k : TileKey) (p : List Anchor) : Prop :=
  ∃ t, ChainFrom G k p t ∧ p ≠ [] ∧ (t.1 = 60 ∨ t.1 = 61)

end ERRoute

namespace ERRoute

/-- `bfsLoop` on an empty queue returns `None` (equation lemma). -/
theorem bfsLoop_nil (G : AnchorMap) (visited : List TileKey) :
    bfsLoop G [] visited = none := by
  rw [bfsLoop]

/-- `bfsLoop` step equation when the inner scan returns a finished path. -/
theorem bfsLoop_cons_inl (G : AnchorMap) (t₀ : TileKey) (p₀ : List Anchor)
    (rest : List (TileKey × List Anchor)) (visited : List TileKey)
    (found : PathToGlobalMap)
    (h : bfsScan p₀ (anchorsAt G t₀) visited [] = .inl found) :
    bfsLoop G ((t₀, p₀) :: rest) visited = some found := by
  rw [bfsLoop]
  split
  · rename_i f hf
    rw [h] at hf
    cases hf
    rfl
  · rename_i vp hvp
    rw [h] at hvp
    cases hvp

/-- `bfsLoop` step equation when the inner scan only extends the frontier. -/
theorem bfsLoop_cons_inr (G : AnchorMap) (t₀ : TileKey) (p₀ : List Anchor)
    (rest : List (TileKey × List Anchor)) (visited : List TileKey)
    (vp : List TileKey × List (TileKey × List Anchor))
    (h : bfsScan p₀ (anchorsAt G t₀) visited [] = .inr vp) :
    bfsLoop G ((t₀, p₀) :: rest) visited = bfsLoop G (rest ++ vp.2) vp.1 := by
  rw [bfsLoop]
  split
  · rename_i f hf
    rw [h] at hf
    cases hf
  · rename_i vp' hvp
    rw [h] at hvp
    cases hvp
    rfl

/-- BFS on the example graph finds the expected two-hop path. -/
theorem exampleGraph_bfs :
    bfs_find_path_to_global (10, 1, 0) exampleGraph = some examplePath := by
  unfold bfs_find_path_to_global
  rw [bfsLoop_cons_inr exampleGraph (10, 1, 0) [] [] [(10, 1, 0)]
    ([(10, 1, 0), (10, 0, 0)],
     [((10, 0, 0), [⟨(0, 0, 0), 10, 0, 0, (10, 5, 10)⟩])]) (by decide)]
  show bfsLoop exampleGraph
    [((10, 0, 0), [⟨(0, 0, 0), 10, 0, 0, (10, 5, 10)⟩])]
    [(10, 1, 0), (10, 0, 0)] = some examplePath
  rw [bfsLoop_cons_inl exampleGraph (10, 0, 0)
    [⟨(0, 0, 0), 10, 0, 0, (10, 5, 10)⟩] [] [(10, 1, 0), (10, 0, 0)]
    examplePath (by decide)]

/-- Precompute on the example graph caches exactly the two-hop path for
`m10_01`. -/
theorem exampleGraph_precompute :
    precompute_paths_to_global exampleGraph = [((10, 1, 0), examplePath)] := by
  have h := exampleGraph_bfs
  simp only [exampleGraph] at h
  unfold precompute_paths_to_global
  have hded : ((exampleGraph.map Prod.fst).dedup) = [(10, 0, 0), (10, 1, 0)] := by
    decide
  rw [hded]
  simp only [List.filterMap_cons, List.filterMap_nil]
  norm_num [exampleGraph, anchorsAt] at h ⊢
  rw [h]
  rfl

end ERRoute


namespace ERRoute

/-- C3: for every packed map identifier whose area byte is 60 or 61 and every
local point, the transform succeeds with exactly
`(x + grid_x * 256, y, z + grid_z * 256)` and the area itself as the resolved
frame, whatever the anchor graph and path cache hold. -/
theorem claim_C3_global_frame_grid_formula (t : WorldPositionTransformer)
    (map_id : ℕ) (x y z : ℚ)
    (h : (parse_map_id map_id).1 = 60 ∨ (parse_map_id map_id).1 = 61) :
    local_to_world_with_global_map t map_id x y z =
      .ok (x + ((parse_map_id map_id).2.1 : ℚ) * 256, y,
        z + ((parse_map_id map_id).2.2.1 : ℚ) * 256, (parse_map_id map_id).1) := by
  simp only [local_to_world_with_global_map]
  rw [if_pos h]

/-- C3 witness: the repository's own overworld example, `m60_40_35_00` at
`(10, 100, 20)`. -/
theorem claim_C3_witness :
    local_to_world_with_global_map WorldPositionTransformer.empty 0x3C282300
      10 100 20 = .ok (10250, 100, 8980, 60) := by
  have h := claim_C3_global_frame_grid_formula WorldPositionTransformer.empty
    0x3C282300 10 100 20 (Or.inl (by decide))
  rw [h, show parse_map_id 0x3C282300 = (60, 40, 35, 0) from by decide]
  norm_num

/-- C7: a packed identifier whose area is not global, with no direct anchor to
either global frame and no path-cache entry, yields the unresolvable-map error
carrying the formatted identifier (the embedding is total, so no panic and no
defaulted coordinate is possible). -/
theorem claim_C7_unresolvable_map_error (t : WorldPositionTransformer)
    (map_id : ℕ) (x y z : ℚ)
    (h60 : (parse_map_id map_id).1 ≠ 60) (h61 : (parse_map_id map_id).1 ≠ 61)
    (hf60 : (anchorsAt t.anchors ((parse_map_id map_id).1,
        (parse_map_id map_id).2.1, (parse_map_id map_id).2.2.1)).find?
        (fun a => decide (a.dst_area_no = 60)) = none)
    (hf61 : (anchorsAt t.anchors ((parse_map_id map_id).1,
        (parse_map_id map_id).2.1, (parse_map_id map_id).2.2.1)).find?
        (fun a => decide (a.dst_area_no = 61)) = none)
    (hp : lookupPath t.paths_to_global ((parse_map_id map_id).1,
        (parse_map_id map_id).2.1, (parse_map_id map_id).2.2.1) = none) :
    local_to_world_with_global_map t map_id x y z =
      .error (.UnknownMap (format_map_id map_id)) := by
  simp only [local_to_world_with_global_map]
  rw [if_neg (not_or.mpr ⟨h60, h61⟩), hf60, hf61, hp]

/-- C7 witness: the empty transformer cannot resolve `m10_01_00_00`. -/
theorem claim_C7_witness :
    local_to_world_with_global_map WorldPositionTransformer.empty 0x0A010000
      1 2 3 = .error (.UnknownMap "m10_01_00_00") := by
  have h := claim_C7_unresolvable_map_error WorldPositionTransformer.empty
    0x0A010000 1 2 3 (by decide) (by decide) rfl rfl rfl
  rw [h]
  have : format_map_id 0x0A010000 = "m10_01_00_00" := by decide
  rw [this]

/-- C4: a tile resolved through a precomputed two-hop chain transforms to the
algebraic composition of the two translate steps followed by the terminal
grid offset. -/
theorem claim_C4_two_hop_composition (t : WorldPositionTransformer)
    (map_id : ℕ) (x y z : ℚ) (s₁ s₂ : Anchor) (g gx gz : ℕ)
    (h60 : (parse_map_id map_id).1 ≠ 60) (h61 : (parse_map_id map_id).1 ≠ 61)
    (hf60 : (anchorsAt t.anchors ((parse_map_id map_id).1,
        (parse_map_id map_id).2.1, (parse_map_id map_id).2.2.1)).find?
        (fun a => decide (a.dst_area_no = 60)) = none)
    (hf61 : (anchorsAt t.anchors ((parse_map_id map_id).1,
        (parse_map_id map_id).2.1, (parse_map_id map_id).2.2.1)).find?
        (fun a => decide (a.dst_area_no = 61)) = none)
    (hp : lookupPath t.paths_to_global ((parse_map_id map_id).1,
        (parse_map_id map_id).2.1, (parse_map_id map_id).2.2.1) =
        some ⟨[s₁, s₂], (g, gx, gz)⟩) :
    local_to_world_with_global_map t map_id x y z =
      .ok (x - s₁.src_pos.1 + s₁.dst_pos.1 - s₂.src_pos.1 + s₂.dst_pos.1
            + (gx : ℚ) * 256,
          y - s₁.src_pos.2.1 + s₁.dst_pos.2.1 - s₂.src_pos.2.1 + s₂.dst_pos.2.1,
          z - s₁.src_pos.2.2 + s₁.dst_pos.2.2 - s₂.src_pos.2.2 + s₂.dst_pos.2.2
            + (gz : ℚ) * 256, g) := by
  simp only [local_to_world_with_global_map]
  rw [if_neg (not_or.mpr ⟨h60, h61⟩), hf60, hf61, hp]
  simp only [apply_path_to_global, translate_step, List.foldl_cons, List.foldl_nil]

/-- C4 witness: the repository's own two-hop example — local `(50, 20, 30)`
at `m10_01_00_00`, hops with destination offsets `(10, 5, 10)` then
`(100, 50, 100)` into global tile `(40, 35)`. -/
theorem claim_C4_witness :
    local_to_world_with_global_map (WorldPositionTransformer.ofAnchors exampleGraph)
      0x0A010000 50 20 30 = .ok (160 + 40 * 256, 75, 140 + 35 * 256, 60) := by
  have hp : lookupPath (WorldPositionTransformer.ofAnchors exampleGraph).paths_to_global
      ((parse_map_id 0x0A010000).1, (parse_map_id 0x0A010000).2.1,
        (parse_map_id 0x0A010000).2.2.1) =
      some ⟨[⟨(0, 0, 0), 10, 0, 0, (10, 5, 10)⟩,
             ⟨(0, 0, 0), 60, 40, 35, (100, 50, 100)⟩], (60, 40, 35)⟩ := by
    show lookupPath (precompute_paths_to_global exampleGraph) _ = _
    rw [exampleGraph_precompute]
    decide
  have h := claim_C4_two_hop_composition
    (WorldPositionTransformer.ofAnchors exampleGraph) 0x0A010000 50 20 30
    ⟨(0, 0, 0), 10, 0, 0, (10, 5, 10)⟩ ⟨(0, 0, 0), 60, 40, 35, (100, 50, 100)⟩
    60 40 35 (by decide) (by decide) (by decide) (by decide) hp
  rw [h]
  norm_num

/-- C1 (code bug): a data row with exactly 18 comma-separated fields whose
required columns all parse numerically is not skipped — ingestion reads
`fields[18]`, which is out of bounds for an 18-field row, so `from_csv`
panics: the guard checks `fields.len() < 18` while the reader needs 19
columns. -/
theorem claim_C1_eighteen_field_row_panics :
    from_csv ["srcId,dstId".data,
      "0,0,0,0,0,10,0,0,0,1.0,2.0,3.0,60,40,35,0,4.0,5.0".data] =
      .error .outOfBoundsPanic := by decide

/-- C10: a 401 status error on the first attempt ends `send_batch`
immediately with a non-success outcome: exactly one network attempt, no
backoff sleep, no further attempts. -/
theorem claim_C10_first_attempt_401_aborts (net : ℕ → HttpAttemptResult)
    (h : net 0 = .statusError 401) :
    send_batch net 3 = ⟨false, 1, []⟩ := by
  unfold send_batch
  conv_lhs => rw [send_batch_from]
  rw [dif_pos (by norm_num)]
  simp only [h]
  simp

/-- C10 witness: a network that always answers 401. -/
theorem claim_C10_witness :
    send_batch (fun _ => .statusError 401) 3 = ⟨false, 1, []⟩ :=
  claim_C10_first_attempt_401_aborts (fun _ => .statusError 401) rfl

/-- One `send_batch` attempt hitting status exactly 200 returns success with
the sleeps performed so far. -/
theorem send_batch_from_200 (net : ℕ → HttpAttemptResult) (mr a : ℕ)
    (s : List ℕ) (ha : a < mr) (h : net a = .response 200) :
    send_batch_from net mr a s = ⟨true, a + 1, s⟩ := by
  conv_lhs => rw [send_batch_from]
  rw [dif_pos ha]
  simp only [h]
  simp

/-- One `send_batch` attempt hitting a retryable outcome falls through to the
backoff sleep and the next attempt. -/
theorem send_batch_from_retryable (net : ℕ → HttpAttemptResult) (mr a : ℕ)
    (s : List ℕ) (ha : a < mr) (hr : RetryableResult (net a)) :
    send_batch_from net mr a s =
      send_batch_from net mr (a + 1)
        (if a < mr - 1 then s ++ [100 * (a + 1)] else s) := by
  conv_lhs => rw [send_batch_from]
  rw [dif_pos ha]
  rcases hr with ⟨st, hst, hne⟩ | ⟨c, hc, hne⟩ | ht
  · simp only [hst]
    rw [if_neg hne]
  · simp only [hc]
    rw [if_neg hne]
  · simp only [ht]

/-- C2 (amended): only a response with status exactly 200 ends a `send_batch`
attempt successfully; when the first `i` attempts are retryable failures and
attempt `i` answers 200, the batch succeeds with `i + 1` attempts and the `i`
escalating backoff sleeps. -/
theorem claim_C2_only_exact_200_succeeds (net : ℕ → HttpAttemptResult) (i : ℕ)
    (hi : i < 3) (hpre : ∀ j < i, RetryableResult (net j))
    (h200 : net i = .response 200) :
    send_batch net 3 =
      ⟨true, i + 1, (List.range i).map (fun j => 100 * (j + 1))⟩ := by
  interval_cases i
  · unfold send_batch
    rw [send_batch_from_200 net 3 0 [] (by norm_num) h200]
    simp
  · unfold send_batch
    rw [send_batch_from_retryable net 3 0 [] (by norm_num)
      (hpre 0 (by norm_num))]
    rw [if_pos (by norm_num)]
    rw [send_batch_from_200 net 3 1 _ (by norm_num) h200]
    rfl
  · unfold send_batch
    rw [send_batch_from_retryable net 3 0 [] (by norm_num)
      (hpre 0 (by norm_num))]
    rw [if_pos (by norm_num)]
    rw [send_batch_from_retryable net 3 1 _ (by norm_num)
      (hpre 1 (by norm_num))]
    rw [if_pos (by norm_num)]
    rw [send_batch_from_200 net 3 2 _ (by norm_num) h200]
    rfl

/-- C2 witness: one transport failure, then a 200 — success after 2 attempts
and a single 100 ms backoff sleep. -/
theorem claim_C2_witness :
    send_batch (fun n => if n = 0 then .transportError else .response 200) 3 =
      ⟨true, 2, [100]⟩ := by
  have h := claim_C2_only_exact_200_succeeds
    (fun n => if n = 0 then .transportError else .response 200) 1
    (by norm_num)
    (fun j hj => by
      interval_cases j
      exact Or.inr (Or.inr rfl))
    rfl
  rw [h]
  decide

/-- C2 counterexample: a 201 response — squarely in the 200 range — does not
end the attempt successfully: with every attempt answering 201, `send_batch`
fails after all three attempts and performs both backoff sleeps. -/
theorem claim_C2_counterexample :
    send_batch (fun _ => .response 201) 3 = ⟨false, 3, [100, 200]⟩ := by
  simp [send_batch, send_batch_from]

end ERRoute

namespace ERRoute

theorem drainFullBatches_small {α : Type} (l : List α) (h : l.length < 10) :
    drainFullBatches l = ([], l) := by
  unfold drainFullBatches
  rw [if_neg (by omega)]

theorem sender_thread_nil {α : Type} (pending : List α) :
    sender_thread ([] : List (SenderMessage α)) pending = [] := rfl

theorem sender_thread_shutdown {α : Type} (tail : List (SenderMessage α))
    (pending : List α) :
    sender_thread (SenderMessage.shutdown :: tail) pending =
      if pending.isEmpty then [] else [pending] := rfl

theorem sender_thread_send {α : Type} (ps : List α)
    (rest : List (SenderMessage α)) (pending : List α) :
    sender_thread (SenderMessage.sendPoints ps :: rest) pending =
      (if (drainFullBatches (pending ++ ps)).2.isEmpty then
        match rest with
        | [] => (drainFullBatches (pending ++ ps)).1
        | SenderMessage.sendPoints ps₂ :: rest₂ =>
          (drainFullBatches (pending ++ ps)).1 ++ sender_thread rest₂ ps₂
        | SenderMessage.shutdown :: _ => (drainFullBatches (pending ++ ps)).1
      else
        match rest with
        | [] => (drainFullBatches (pending ++ ps)).1
        | SenderMessage.sendPoints ps₂ :: rest₂ =>
          (drainFullBatches (pending ++ ps)).1 ++
            sender_thread rest₂ ((drainFullBatches (pending ++ ps)).2 ++ ps₂)
        | SenderMessage.shutdown :: _ =>
          (drainFullBatches (pending ++ ps)).1 ++
            [(drainFullBatches (pending ++ ps)).2]) := by
  rw [sender_thread.eq_def]

theorem sender_thread_flush_aux {α : Type} :
    ∀ (n : ℕ) (pss : List (List α)) (pending : List α),
      pss.length ≤ n →
      pending ++ pss.flatten ≠ [] →
      (pending ++ pss.flatten).length < 10 →
      sender_thread (pss.map SenderMessage.sendPoints ++ [SenderMessage.shutdown])
        pending = [pending ++ pss.flatten] := by
  intro n
  induction n with
  | zero =>
    intro pss pending hlen hne hlt
    have hpss : pss = [] := List.length_eq_zero.mp (Nat.le_zero.mp hlen)
    subst hpss
    simp only [List.map_nil, List.nil_append, List.flatten_nil, List.append_nil] at hne ⊢
    rw [sender_thread_shutdown]
    rw [if_neg (by simpa using hne)]
  | succ n ih =>
    intro pss pending hlen hne hlt
    match pss with
    | [] =>
      simp only [List.map_nil, List.nil_append, List.flatten_nil, List.append_nil] at hne ⊢
      rw [sender_thread_shutdown]
      rw [if_neg (by simpa using hne)]
    | p :: pss' =>
      simp only [List.map_cons, List.cons_append, List.flatten_cons] at hne hlt ⊢
      rw [sender_thread_send]
      have hp1 : (pending ++ p).length < 10 := by
        simp only [List.length_append] at hlt ⊢
        omega
      rw [drainFullBatches_small (pending ++ p) hp1]
      by_cases hempty : (pending ++ p) = []
      · have hnil : pending = [] ∧ p = [] := List.append_eq_nil.mp hempty
        rw [hempty]
        simp only [List.isEmpty_nil, if_true]
        match pss' with
        | [] =>
          exfalso
          apply hne
          rw [hnil.1, hnil.2]
          simp
        | q :: pss'' =>
          simp only [List.map_cons, List.cons_append]
          have hres := ih pss'' q
            (by simp only [List.length_cons] at hlen; omega)
            (by
              simp only [hnil.1, hnil.2, List.nil_append, List.flatten_cons] at hne
              simpa using hne)
            (by
              simp only [hnil.1, hnil.2, List.nil_append, List.flatten_cons] at hlt
              simpa using hlt)
          rw [hres]
          rw [hnil.1, hnil.2]
          simp
      · have hbne : (pending ++ p).isEmpty = false := by
          simpa [List.isEmpty_iff] using hempty
        rw [hbne]
        simp only [Bool.false_eq_true, if_false]
        match pss' with
        | [] =>
          simp
        | q :: pss'' =>
          simp only [List.map_cons, List.cons_append]
          have hres := ih pss'' ((pending ++ p) ++ q)
            (by simp only [List.length_cons] at hlen; omega)
            (by
              intro hcontra
              apply hempty
              exact (List.append_eq_nil.mp (List.append_eq_nil.mp hcontra).1).1)
            (by
              simp only [List.length_append, List.flatten_cons] at hlt ⊢
              omega)
          rw [hres]
          simp

/-- C9: enqueuing fewer than one batch's worth of points (under 10) and then
the shutdown message makes the worker dispatch exactly one network batch
holding all the enqueued points in enqueue order before terminating. -/
theorem claim_C9_small_backlog_single_flush {α : Type} (pss : List (List α))
    (hne : pss.flatten ≠ []) (hlt : pss.flatten.length < 10) :
    sender_thread (pss.map SenderMessage.sendPoints ++ [SenderMessage.shutdown])
      [] = [pss.flatten] := by
  have h := sender_thread_flush_aux pss.length pss [] le_rfl
    (by simpa using hne) (by simpa using hlt)
  simpa using h

/-- C9 witness: three points in one enqueue, then shutdown. -/
theorem claim_C9_witness :
    sender_thread [SenderMessage.sendPoints [1, 2, 3], SenderMessage.shutdown]
      ([] : List ℕ) = [[1, 2, 3]] := by
  have h := claim_C9_small_backlog_single_flush [[1, 2, 3]]
    (by decide) (by decide)
  simpa using h

end ERRoute
namespace ERRoute

/-- Membership in the per-key anchor list, unfolded. -/
theorem mem_anchorsAt {m : AnchorMap} {k : TileKey} {a : Anchor} :
    a ∈ anchorsAt m k ↔ ∃ e ∈ m, e.1 = k ∧ e.2 = a := by
  unfold anchorsAt
  simp only [List.mem_map, List.mem_filter, decide_eq_true_eq]
  constructor
  · rintro ⟨e, ⟨he, hk⟩, rfl⟩
    exact ⟨e, he, hk, rfl⟩
  · rintro ⟨e, he, hk, rfl⟩
    exact ⟨e, ⟨he, hk⟩, rfl⟩

/-- The duplicate check is reflexive: an anchor is a duplicate of itself. -/
theorem isDuplicateOf_self (a : Anchor) : isDuplicateOf a a = true := by
  unfold isDuplicateOf positions_equal
  simp

/-- If some stored edge at the right key matches the inverse, the
`already_exists` check fires. -/
theorem inverseExists_of_mem (acc : AnchorMap) (key : TileKey) (inv : Anchor)
    (e : TileKey × Anchor) (he : e ∈ acc) (hk : e.1 = key)
    (hd : isDuplicateOf e.2 inv = true) :
    inverseExists acc key inv = true := by
  unfold inverseExists
  rw [List.any_eq_true]
  exact ⟨e.2, mem_anchorsAt.mpr ⟨e, he, hk, rfl⟩, hd⟩

/-- Conversely, a firing `already_exists` check names a stored edge. -/
theorem inverseExists_elim {acc : AnchorMap} {key : TileKey} {inv : Anchor}
    (h : inverseExists acc key inv = true) :
    ∃ e ∈ acc, e.1 = key ∧ isDuplicateOf e.2 inv = true := by
  unfold inverseExists at h
  rw [List.any_eq_true] at h
  obtain ⟨a, ha, hd⟩ := h
  obtain ⟨e, he, hk, rfl⟩ := mem_anchorsAt.mp ha
  exact ⟨e, he, hk, hd⟩

/-- Inserting inverses only appends: existing edges stay. -/
theorem insertInverses_mem_mono (l : List (TileKey × Anchor)) :
    ∀ (acc : AnchorMap) (e : TileKey × Anchor), e ∈ acc →
      e ∈ insertInverses acc l := by
  induction l with
  | nil => intro acc e he; simpa [insertInverses] using he
  | cons hd tl ih =>
    intro acc e he
    obtain ⟨key, inv⟩ := hd
    simp only [insertInverses]
    split
    · exact ih acc e he
    · exact ih _ e (List.mem_append_left _ he)

/-- Every edge of the result comes from the accumulator or the pending list. -/
theorem insertInverses_mem_origin (l : List (TileKey × Anchor)) :
    ∀ (acc : AnchorMap) (e : TileKey × Anchor), e ∈ insertInverses acc l →
      e ∈ acc ∨ e ∈ l := by
  induction l with
  | nil => intro acc e he; exact Or.inl (by simpa [insertInverses] using he)
  | cons hd tl ih =>
    intro acc e he
    obtain ⟨key, inv⟩ := hd
    simp only [insertInverses] at he
    split at he
    · rcases ih acc e he with h | h
      · exact Or.inl h
      · exact Or.inr (List.mem_cons_of_mem _ h)
    · rcases ih _ e he with h | h
      · rcases List.mem_append.mp h with h' | h'
        · exact Or.inl h'
        · simp only [List.mem_singleton] at h'
          exact Or.inr (h' ▸ List.mem_cons_self _ _)
      · exact Or.inr (List.mem_cons_of_mem _ h)

/-- After the insertion pass, every pending inverse has a matching edge at its
key in the result (either a pre-existing duplicate or the inverse itself). -/
theorem insertInverses_covers (l : List (TileKey × Anchor)) :
    ∀ (acc : AnchorMap), ∀ p ∈ l,
      ∃ e ∈ insertInverses acc l, e.1 = p.1 ∧ isDuplicateOf e.2 p.2 = true := by
  induction l with
  | nil => intro acc p hp; cases hp
  | cons hd tl ih =>
    intro acc p hp
    obtain ⟨key, inv⟩ := hd
    simp only [insertInverses]
    rcases List.mem_cons.mp hp with rfl | hp'
    · split
      · rename_i hex
        obtain ⟨e, he, hk, hd'⟩ := inverseExists_elim hex
        exact ⟨e, insertInverses_mem_mono tl acc e he, hk, hd'⟩
      · refine ⟨(key, inv), insertInverses_mem_mono tl _ _ ?_, rfl,
          isDuplicateOf_self inv⟩
        exact List.mem_append_right _ (List.mem_singleton.mpr rfl)
    · split
      · exact ih acc p hp'
      · exact ih _ p hp'

/-- When every pending inverse already has a duplicate in the accumulator,
the insertion pass is the identity. -/
theorem insertInverses_all_matched (l : List (TileKey × Anchor)) :
    ∀ (acc : AnchorMap), (∀ p ∈ l, inverseExists acc p.1 p.2 = true) →
      insertInverses acc l = acc := by
  induction l with
  | nil => intro acc _; rfl
  | cons hd tl ih =>
    intro acc hall
    obtain ⟨key, inv⟩ := hd
    simp only [insertInverses]
    rw [if_pos (hall (key, inv) (List.mem_cons_self _ _))]
    exact ih acc fun p hp => hall p (List.mem_cons_of_mem _ hp)

/-- Synthesizing the inverse twice gives back the original keyed edge. -/
theorem invertEdge_invol (e : TileKey × Anchor) :
    invertEdge (invertEdge e) = e := by
  obtain ⟨⟨a, b, c⟩, ⟨sp, da, dx, dz, dp⟩⟩ := e
  rfl

/-- C6: `add_inverse_anchors` is idempotent under its duplicate check — a
second run on the result of the first adds no edge at all, so edge counts
never grow beyond the first pass's additions. -/
theorem claim_C6_add_inverse_anchors_idempotent (G : AnchorMap) :
    add_inverse_anchors (add_inverse_anchors G) = add_inverse_anchors G := by
  conv_lhs => rw [add_inverse_anchors]
  apply insertInverses_all_matched
  intro p hp
  rcases List.mem_map.mp hp with ⟨e, heH, rfl⟩
  rcases insertInverses_mem_origin (G.map invertEdge) G e heH with heG | heInv
  · obtain ⟨e', he', hk, hd⟩ := insertInverses_covers (G.map invertEdge) G
      (invertEdge e) (List.mem_map.mpr ⟨e, heG, rfl⟩)
    exact inverseExists_of_mem _ _ _ e' he' hk hd
  · rcases List.mem_map.mp heInv with ⟨e₀, he₀, rfl⟩
    rw [invertEdge_invol]
    exact inverseExists_of_mem _ _ _ e₀
      (insertInverses_mem_mono (G.map invertEdge) G e₀ he₀) rfl
      (isDuplicateOf_self _)

end ERRoute
namespace ERRoute

/-- An empty chain ends where it starts. -/
theorem ChainFrom.nil_elim {G : AnchorMap} {k t : TileKey}
    (h : ChainFrom G k [] t) : t = k := by
  cases h
  rfl

/-- Extending a chain by one more stored edge at its endpoint. -/
theorem ChainFrom.append_single {G : AnchorMap} {k t : TileKey}
    {p : List Anchor} (h : ChainFrom G k p t) {a : Anchor}
    (ha : a ∈ anchorsAt G t) : ChainFrom G k (p ++ [a]) (dstKey a) := by
  induction h with
  | nil k => exact ChainFrom.cons a ha (ChainFrom.nil _)
  | cons b hb hrest ih => exact ChainFrom.cons b hb (ih ha)

/-- Splitting off a chain's last edge. -/
theorem ChainFrom.concat_elim {G : AnchorMap} :
    ∀ {c : List Anchor} {k t : TileKey} {a : Anchor},
      ChainFrom G k (c ++ [a]) t →
      ∃ u, ChainFrom G k c u ∧ a ∈ anchorsAt G u ∧ t = dstKey a := by
  intro c
  induction c with
  | nil =>
    intro k t a h
    rw [List.nil_append] at h
    cases h with
    | cons a ha hrest =>
      exact ⟨k, ChainFrom.nil k, ha, hrest.nil_elim⟩
  | cons b c' ih =>
    intro k t a h
    rw [List.cons_append] at h
    cases h with
    | cons b hb hrest =>
      obtain ⟨u, hu, ha, ht⟩ := ih hrest
      exact ⟨u, ChainFrom.cons b hb hu, ha, ht⟩

/-- Closure of the discovered set: while the BFS head carries a shortest path
of length `L`, every tile reachable by a chain of length at most `L` is
already visited. -/
theorem bfs_discovered_closure (G : AnchorMap) (start t₀ : TileKey)
    (p₀ : List Anchor) (rest : List (TileKey × List Anchor))
    (visited : List TileKey)
    (hpw : ((t₀, p₀) :: rest).Pairwise
      (fun e₁ e₂ => e₁.2.length ≤ e₂.2.length))
    (hmin : ∀ e ∈ (t₀, p₀) :: rest, ChainFrom G start e.2 e.1 ∧
      ∀ c, ChainFrom G start c e.1 → e.2.length ≤ c.length)
    (hdisc : ∀ v c, ChainFrom G start c v → c.length < p₀.length →
      v ∈ visited)
    (hexp : ∀ v ∈ visited, (¬ ∃ q, (v, q) ∈ (t₀, p₀) :: rest) →
      ∀ a ∈ anchorsAt G v,
        ¬(a.dst_area_no = 60 ∨ a.dst_area_no = 61) ∧ dstKey a ∈ visited)
    (hstart : start ∈ visited) :
    ∀ v (c : List Anchor), ChainFrom G start c v → c.length ≤ p₀.length →
      v ∈ visited := by
  intro v c hc hlen
  rcases Nat.lt_or_ge c.length p₀.length with hlt | hge
  · exact hdisc v c hc hlt
  have hceq : c.length = p₀.length := le_antisymm hlen hge
  rcases c.eq_nil_or_concat' with rfl | ⟨c', a', rfl⟩
  · rw [hc.nil_elim]
    exact hstart
  obtain ⟨u, hu, ha', hv⟩ := hc.concat_elim
  have hlen' : c'.length + 1 = p₀.length := by
    simpa using hceq
  have huv : u ∈ visited := hdisc u c' hu (by omega)
  by_cases hq : ∃ q, (u, q) ∈ (t₀, p₀) :: rest
  · exfalso
    obtain ⟨q, hq⟩ := hq
    have hqmin : q.length ≤ c'.length := (hmin _ hq).2 c' hu
    rcases List.mem_cons.mp hq with heq | hmem
    · have hqp : q = p₀ := congrArg Prod.snd heq
      subst hqp
      omega
    · have h2 : p₀.length ≤ q.length :=
        (List.pairwise_cons.mp hpw).1 _ hmem
      omega
  · rw [hv]
    exact (hexp u huv hq a' ha').2

end ERRoute
namespace ERRoute

/-- If the inner scan returns a finished path, it extends the popped path by
one scanned anchor whose destination area is global. -/
theorem bfsScan_inl {p₀ : List Anchor} :
    ∀ (as : List Anchor) (visited : List TileKey)
      (pushed : List (TileKey × List Anchor)) (found : PathToGlobalMap),
      bfsScan p₀ as visited pushed = .inl found →
      ∃ a ∈ as, (a.dst_area_no = 60 ∨ a.dst_area_no = 61) ∧
        found = ⟨p₀ ++ [a], dstKey a⟩ := by
  intro as
  induction as with
  | nil =>
    intro visited pushed found h
    simp only [bfsScan] at h
    cases h
  | cons a rest ih =>
    intro visited pushed found h
    simp only [bfsScan] at h
    split at h
    · cases h
      exact ⟨a, List.mem_cons_self _ _, by assumption, rfl⟩
    · split at h
      · obtain ⟨b, hb, hglob, hfound⟩ := ih _ _ _ h
        exact ⟨b, List.mem_cons_of_mem _ hb, hglob, hfound⟩
      · obtain ⟨b, hb, hglob, hfound⟩ := ih _ _ _ h
        exact ⟨b, List.mem_cons_of_mem _ hb, hglob, hfound⟩

/-- If the inner scan only extends the frontier, this characterizes the new
visited set and the pushed queue entries. -/
theorem bfsScan_inr {p₀ : List Anchor} :
    ∀ (as : List Anchor) (visited : List TileKey)
      (pushed : List (TileKey × List Anchor))
      (vp : List TileKey × List (TileKey × List Anchor)),
      bfsScan p₀ as visited pushed = .inr vp →
      (∀ v ∈ visited, v ∈ vp.1) ∧
      (∀ a ∈ as, ¬(a.dst_area_no = 60 ∨ a.dst_area_no = 61)) ∧
      (∀ a ∈ as, dstKey a ∈ vp.1) ∧
      (∀ e ∈ vp.2, e ∈ pushed ∨ ∃ a ∈ as,
        ¬(a.dst_area_no = 60 ∨ a.dst_area_no = 61) ∧
        e = (dstKey a, p₀ ++ [a]) ∧ dstKey a ∉ visited) ∧
      (∀ e ∈ pushed, e ∈ vp.2) ∧
      (∀ v ∈ vp.1, v ∈ visited ∨ ∃ q, (v, q) ∈ vp.2) := by
  intro as
  induction as with
  | nil =>
    intro visited pushed vp h
    simp only [bfsScan] at h
    cases h
    refine ⟨fun v hv => hv, by simp, by simp, fun e he => Or.inl he,
      fun e he => he, fun v hv => Or.inl hv⟩
  | cons a rest ih =>
    intro visited pushed vp h
    simp only [bfsScan] at h
    split at h
    · cases h
    · rename_i hnglob
      split at h
      · rename_i hvis
        obtain ⟨h1, h2, h3, h4, h5, h6⟩ := ih _ _ _ h
        refine ⟨h1, ?_, ?_, ?_, h5, h6⟩
        · intro b hb
          rcases List.mem_cons.mp hb with rfl | hb'
          · exact hnglob
          · exact h2 b hb'
        · intro b hb
          rcases List.mem_cons.mp hb with rfl | hb'
          · exact h1 _ hvis
          · exact h3 b hb'
        · intro e he
          rcases h4 e he with he' | ⟨b, hb, hng, heq, hnv⟩
          · exact Or.inl he'
          · exact Or.inr ⟨b, List.mem_cons_of_mem _ hb, hng, heq, hnv⟩
      · rename_i hnvis
        obtain ⟨h1, h2, h3, h4, h5, h6⟩ := ih _ _ _ h
        refine ⟨?_, ?_, ?_, ?_, ?_, ?_⟩
        · intro v hv
          exact h1 v (List.mem_append_left _ hv)
        · intro b hb
          rcases List.mem_cons.mp hb with rfl | hb'
          · exact hnglob
          · exact h2 b hb'
        · intro b hb
          rcases List.mem_cons.mp hb with rfl | hb'
          · exact h1 _ (List.mem_append_right _ (List.mem_singleton.mpr rfl))
          · exact h3 b hb'
        · intro e he
          rcases h4 e he with he' | ⟨b, hb, hng, heq, hnv⟩
          · rcases List.mem_append.mp he' with hp | hp
            · exact Or.inl hp
            · simp only [List.mem_singleton] at hp
              exact Or.inr ⟨a, List.mem_cons_self _ _, hnglob, hp, hnvis⟩
          · refine Or.inr ⟨b, List.mem_cons_of_mem _ hb, hng, heq, ?_⟩
            intro hmem
            exact hnv (List.mem_append_left _ hmem)
        · intro e he
          exact h5 e (List.mem_append_left _ he)
        · intro v hv
          rcases h6 v hv with hv' | ⟨q, hq⟩
          · rcases List.mem_append.mp hv' with hm | hm
            · exact Or.inl hm
            · simp only [List.mem_singleton] at hm
              subst hm
              exact Or.inr ⟨p₀ ++ [a],
                h5 _ (List.mem_append_right _ (List.mem_singleton.mpr rfl))⟩
          · exact Or.inr ⟨q, hq⟩

end ERRoute
namespace ERRoute

/-- Master BFS invariant lemma: from any loop state satisfying the BFS
invariants (queue sorted by level with spread at most one, queue entries
carrying shortest valid chains, all strictly closer tiles visited, popped
tiles fully expanded and free of global edges, traces inside the visited
set), a returned path is a valid chain to a global tile, of minimal length
among all global chains from `start`, and (for a non-global start) visits no
tile twice. -/
theorem bfsLoop_good (G : AnchorMap) (start : TileKey) :
    ∀ (n : ℕ) (queue : List (TileKey × List Anchor)) (visited : List TileKey),
      2 * unvisitedCount G visited + queue.length ≤ n →
      queue.Pairwise (fun e₁ e₂ => e₁.2.length ≤ e₂.2.length) →
      (∀ e₁ ∈ queue, ∀ e₂ ∈ queue, e₂.2.length ≤ e₁.2.length + 1) →
      (∀ e ∈ queue, ChainFrom G start e.2 e.1 ∧
        ∀ c, ChainFrom G start c e.1 → e.2.length ≤ c.length) →
      (∀ e₀ ∈ queue.head?, ∀ v (c : List Anchor), ChainFrom G start c v →
        c.length < e₀.2.length → v ∈ visited) →
      (∀ v ∈ visited, (¬ ∃ q, (v, q) ∈ queue) →
        ∀ a ∈ anchorsAt G v,
          ¬(a.dst_area_no = 60 ∨ a.dst_area_no = 61) ∧ dstKey a ∈ visited) →
      start ∈ visited →
      (∀ e ∈ queue, e.1 ∈ visited) →
      (∀ e ∈ queue, (start :: e.2.map dstKey).Nodup ∧
        (∀ k ∈ e.2.map dstKey, k ∈ visited) ∧
        (∀ a ∈ e.2, ¬(a.dst_area_no = 60 ∨ a.dst_area_no = 61))) →
      ∀ p, bfsLoop G queue visited = some p →
        ChainFrom G start p.steps p.final_global_tile ∧ p.steps ≠ [] ∧
        (p.final_global_tile.1 = 60 ∨ p.final_global_tile.1 = 61) ∧
        (∀ c, GlobalChain G start c → p.steps.length ≤ c.length) ∧
        (¬(start.1 = 60 ∨ start.1 = 61) →
          (start :: p.steps.map dstKey).Nodup) := by
  intro n
  induction n with
  | zero =>
    intro queue visited hm _ _ _ _ _ _ _ _ p hp
    rcases queue with _ | ⟨⟨t₀, p₀⟩, rest⟩
    · rw [bfsLoop_nil] at hp
      cases hp
    · simp only [List.length_cons] at hm
      omega
  | succ n ih =>
    intro queue visited hm hpw hspread hmin hdisc hexp hstart hqvis htrace p hp
    rcases queue with _ | ⟨⟨t₀, p₀⟩, rest⟩
    · rw [bfsLoop_nil] at hp
      cases hp
    cases hscan : bfsScan p₀ (anchorsAt G t₀) visited [] with
    | inl found =>
      rw [bfsLoop_cons_inl G t₀ p₀ rest visited found hscan] at hp
      cases hp
      obtain ⟨a, ha, hglob, hfound⟩ := bfsScan_inl _ _ _ _ hscan
      subst hfound
      have hhead := hmin (t₀, p₀) (List.mem_cons_self _ _)
      refine ⟨hhead.1.append_single ha, by simp, hglob, ?_, ?_⟩
      · intro c hc
        obtain ⟨t, hct, hcne, hctglob⟩ := hc
        by_contra hncl
        push_neg at hncl
        have hclen : c.length ≤ p₀.length := by
          simp only [List.length_append, List.length_singleton] at hncl
          omega
        rcases c.eq_nil_or_concat' with rfl | ⟨c', a', rfl⟩
        · exact hcne rfl
        obtain ⟨u, hu, ha', ht⟩ := hct.concat_elim
        have hlen1 : c'.length + 1 ≤ p₀.length := by
          simpa using hclen
        have hu_vis : u ∈ visited :=
          hdisc (t₀, p₀) rfl u c' hu (by show c'.length < p₀.length; omega)
        by_cases hq : ∃ q, (u, q) ∈ (t₀, p₀) :: rest
        · obtain ⟨q, hqm⟩ := hq
          have hqmin : q.length ≤ c'.length := (hmin _ hqm).2 c' hu
          rcases List.mem_cons.mp hqm with heq | hmem
          · injection heq with hu2 hq2
            subst hq2
            omega
          · have h2 : p₀.length ≤ q.length :=
              (List.pairwise_cons.mp hpw).1 _ hmem
            omega
        · apply (hexp u hu_vis hq a' ha').1
          subst ht
          exact hctglob
      · intro hsng
        have htr := htrace (t₀, p₀) (List.mem_cons_self _ _)
        show (start :: (p₀ ++ [a]).map dstKey).Nodup
        rw [List.map_append]
        rw [show start :: (p₀.map dstKey ++ [a].map dstKey) =
          (start :: p₀.map dstKey) ++ [dstKey a] from rfl]
        apply List.Nodup.append htr.1 (List.nodup_singleton _)
        intro x hx hx'
        simp only [List.mem_singleton] at hx'
        subst hx'
        rcases List.mem_cons.mp hx with heq | hmem
        · apply hsng
          rw [← heq]
          exact hglob
        · obtain ⟨b, hb, hbk⟩ := List.mem_map.mp hmem
          apply htr.2.2 b hb
          have : (dstKey b).1 = (dstKey a).1 := by rw [hbk]
          simp only [dstKey] at this
          rw [this]
          exact hglob
    | inr vp =>
      rw [bfsLoop_cons_inr G t₀ p₀ rest visited vp hscan] at hp
      obtain ⟨s1, s2, s3, s4, s5, s6⟩ := bfsScan_inr _ _ _ _ hscan
      have s4' : ∀ e ∈ vp.2, ∃ a ∈ anchorsAt G t₀,
          ¬(a.dst_area_no = 60 ∨ a.dst_area_no = 61) ∧
          e = (dstKey a, p₀ ++ [a]) ∧ dstKey a ∉ visited := by
        intro e he
        rcases s4 e he with h' | h'
        · exact absurd h' (List.not_mem_nil e)
        · exact h'
      have hheadmin := hmin (t₀, p₀) (List.mem_cons_self _ _)
      have hDISC : ∀ v (c : List Anchor), ChainFrom G start c v →
          c.length ≤ p₀.length → v ∈ visited :=
        bfs_discovered_closure G start t₀ p₀ rest visited hpw hmin
          (fun v c hc hl => hdisc (t₀, p₀) rfl v c hc hl) hexp hstart
      have hmeas := bfsScan_measure G p₀ (anchorsAt G t₀) visited []
        (anchorsAt_dst_mem_bfsCand G t₀) vp hscan
      have hlen2 : ∀ e ∈ vp.2, e.2.length = p₀.length + 1 := by
        intro e he
        obtain ⟨a, _, _, heq, _⟩ := s4' e he
        subst heq
        simp
      have hrest_le : ∀ e ∈ rest, e.2.length ≤ p₀.length + 1 := fun e he =>
        hspread (t₀, p₀) (List.mem_cons_self _ _) e (List.mem_cons_of_mem _ he)
      have hrest_ge : ∀ e ∈ rest, p₀.length ≤ e.2.length := fun e he =>
        (List.pairwise_cons.mp hpw).1 e he
      refine ih (rest ++ vp.2) vp.1 ?_ ?_ ?_ ?_ ?_ ?_ ?_ ?_ ?_ p hp
      · -- measure
        simp only [List.length_nil, List.length_append] at hmeas ⊢
        simp only [List.length_cons] at hm
        omega
      · -- pairwise
        rw [List.pairwise_append]
        refine ⟨(List.pairwise_cons.mp hpw).2, ?_, ?_⟩
        · apply List.pairwise_of_forall_mem_list
          intro e₁ h₁ e₂ h₂
          rw [hlen2 e₁ h₁, hlen2 e₂ h₂]
        · intro e₁ h₁ e₂ h₂
          rw [hlen2 e₂ h₂]
          exact hrest_le e₁ h₁
      · -- spread
        intro e₁ h₁ e₂ h₂
        rcases List.mem_append.mp h₁ with h₁' | h₁' <;>
          rcases List.mem_append.mp h₂ with h₂' | h₂'
        · exact hspread e₁ (List.mem_cons_of_mem _ h₁')
            e₂ (List.mem_cons_of_mem _ h₂')
        · rw [hlen2 e₂ h₂']
          have := hrest_ge e₁ h₁'
          omega
        · rw [hlen2 e₁ h₁']
          have := hrest_le e₂ h₂'
          omega
        · rw [hlen2 e₁ h₁', hlen2 e₂ h₂']
          omega
      · -- entries valid and minimal
        intro e he
        rcases List.mem_append.mp he with he' | he'
        · exact hmin e (List.mem_cons_of_mem _ he')
        · obtain ⟨a, ha, hng, heq, hnv⟩ := s4' e he'
          subst heq
          refine ⟨hheadmin.1.append_single ha, ?_⟩
          intro c hc
          by_contra h'
          push_neg at h'
          have hcl : c.length ≤ p₀.length := by
            simp only [List.length_append, List.length_singleton] at h'
            omega
          exact hnv (hDISC _ c hc hcl)
      · -- discovered
        intro e₀ he₀ v c hc hlen
        have hmem := List.mem_of_mem_head? he₀
        have hb : e₀.2.length ≤ p₀.length + 1 := by
          rcases List.mem_append.mp hmem with h' | h'
          · exact hrest_le e₀ h'
          · exact le_of_eq (hlen2 e₀ h')
        exact s1 v (hDISC v c hc (by omega))
      · -- expanded
        intro v hv hnq a ha
        rcases s6 v hv with hv' | ⟨q, hq⟩
        · by_cases hvt : v = t₀
          · subst hvt
            exact ⟨s2 a ha, s3 a ha⟩
          · have hnq' : ¬ ∃ q, (v, q) ∈ (t₀, p₀) :: rest := by
              rintro ⟨q, hq⟩
              rcases List.mem_cons.mp hq with heq | hmem
              · exact hvt (congrArg Prod.fst heq)
              · exact hnq ⟨q, List.mem_append_left _ hmem⟩
            obtain ⟨hng, hdv⟩ := hexp v hv' hnq' a ha
            exact ⟨hng, s1 _ hdv⟩
        · exact absurd ⟨q, List.mem_append_right _ hq⟩ hnq
      · -- start visited
        exact s1 start hstart
      · -- queue tiles visited
        intro e he
        rcases List.mem_append.mp he with he' | he'
        · exact s1 _ (hqvis e (List.mem_cons_of_mem _ he'))
        · obtain ⟨a, ha, hng, heq, hnv⟩ := s4' e he'
          subst heq
          exact s3 a ha
      · -- traces
        intro e he
        rcases List.mem_append.mp he with he' | he'
        · obtain ⟨hnd, hsub, hng⟩ := htrace e (List.mem_cons_of_mem _ he')
          exact ⟨hnd, fun k hk => s1 k (hsub k hk), hng⟩
        · obtain ⟨a, ha, hng, heq, hnv⟩ := s4' e he'
          subst heq
          obtain ⟨hnd, hsub, hng'⟩ := htrace (t₀, p₀) (List.mem_cons_self _ _)
          refine ⟨?_, ?_, ?_⟩
          · show (start :: (p₀ ++ [a]).map dstKey).Nodup
            rw [List.map_append]
            rw [show start :: (p₀.map dstKey ++ [a].map dstKey) =
              (start :: p₀.map dstKey) ++ [dstKey a] from rfl]
            apply List.Nodup.append hnd (List.nodup_singleton _)
            intro x hx hx'
            simp only [List.mem_singleton] at hx'
            subst hx'
            apply hnv
            rcases List.mem_cons.mp hx with heq' | hmem'
            · rw [heq']
              exact hstart
            · exact hsub _ hmem'
          · intro k hk
            rw [List.map_append] at hk
            rcases List.mem_append.mp hk with hk' | hk'
            · exact s1 k (hsub k hk')
            · simp only [List.map_cons, List.map_nil,
                List.mem_singleton] at hk'
              subst hk'
              exact s3 a ha
          · intro b hb
            rcases List.mem_append.mp hb with hb' | hb'
            · exact hng' b hb'
            · simp only [List.mem_singleton] at hb'
              subst hb'
              exact hng

end ERRoute
namespace ERRoute

/-- Any path returned by `bfs_find_path_to_global` is a valid chain to its
recorded global tile, of minimal hop count among all global chains from the
start tile, and (for a non-global start) visits no tile twice. -/
theorem bfs_some_good (G : AnchorMap) (start : TileKey) (p : PathToGlobalMap)
    (h : bfs_find_path_to_global start G = some p) :
    ChainFrom G start p.steps p.final_global_tile ∧ p.steps ≠ [] ∧
    (p.final_global_tile.1 = 60 ∨ p.final_global_tile.1 = 61) ∧
    (∀ c, GlobalChain G start c → p.steps.length ≤ c.length) ∧
    (¬(start.1 = 60 ∨ start.1 = 61) → (start :: p.steps.map dstKey).Nodup) := by
  apply bfsLoop_good G start (2 * unvisitedCount G [start] + 1)
    [(start, [])] [start] (by simp) (List.pairwise_singleton _ _)
    ?_ ?_ ?_ ?_ (by simp) ?_ ?_ p h
  · intro e₁ h₁ e₂ h₂
    simp only [List.mem_singleton] at h₁ h₂
    subst h₁
    subst h₂
    simp
  · intro e he
    simp only [List.mem_singleton] at he
    subst he
    exact ⟨ChainFrom.nil start, fun c _ => by simp⟩
  · intro e₀ he₀ v c hc hlen
    have : e₀ = (start, []) := by
      have h' := he₀
      simp only [Option.mem_def, List.head?_cons] at h'
      exact (Option.some.inj h').symm
    subst this
    simp at hlen
  · intro v hv hnq a ha
    exfalso
    apply hnq
    simp only [List.mem_singleton] at hv
    subst hv
    exact ⟨[], by simp⟩
  · intro e he
    simp only [List.mem_singleton] at he
    subst he
    simp
  · intro e he
    simp only [List.mem_singleton] at he
    subst he
    simp

/-- A cache entry produced by `precompute_paths_to_global` comes from a BFS
run at its own (non-global) key. -/
theorem precompute_lookup_elim {G : AnchorMap} {k : TileKey}
    {p : PathToGlobalMap}
    (h : lookupPath (precompute_paths_to_global G) k = some p) :
    ¬(k.1 = 60 ∨ k.1 = 61) ∧ bfs_find_path_to_global k G = some p := by
  unfold lookupPath at h
  cases hf : (precompute_paths_to_global G).find? (fun e => decide (e.1 = k)) with
  | none =>
    rw [hf] at h
    cases h
  | some e =>
    rw [hf] at h
    simp only [Option.map_some'] at h
    have hep : e.2 = p := Option.some.inj h
    have hmem := List.mem_of_find?_eq_some hf
    have hpred : e.1 = k := by
      have := List.find?_some hf
      simpa using this
    unfold precompute_paths_to_global at hmem
    obtain ⟨tk, htk, hfk⟩ := List.mem_filterMap.mp hmem
    split at hfk
    · cases hfk
    · split at hfk
      · cases hfk
      · rename_i hng _
        cases hb : bfs_find_path_to_global tk G with
        | none =>
          rw [hb] at hfk
          cases hfk
        | some q =>
          rw [hb] at hfk
          simp only [Option.map_some'] at hfk
          have he : e = (tk, q) := (Option.some.inj hfk).symm
          have hkk : tk = k := by
            rw [he] at hpred
            exact hpred
          have hqp : q = p := by
            rw [he] at hep
            exact hep
          subst hkk
          subst hqp
          exact ⟨hng, hb⟩

/-- C5: every path BFS returns is a global chain of minimal hop count: no
chain in the graph from the same tile to a global frame is shorter. -/
theorem claim_C5_bfs_paths_minimal (G : AnchorMap) (start : TileKey)
    (p : PathToGlobalMap) (h : bfs_find_path_to_global start G = some p) :
    GlobalChain G start p.steps ∧
      ∀ c, GlobalChain G start c → p.steps.length ≤ c.length := by
  obtain ⟨h1, h2, h3, h4, _⟩ := bfs_some_good G start p h
  exact ⟨⟨p.final_global_tile, h1, h2, h3⟩, h4⟩

/-- C5 witness: on the example graph, the returned two-step path is a global
chain and is minimal (its length is at most two). -/
theorem claim_C5_witness :
    GlobalChain exampleGraph (10, 1, 0) examplePath.steps ∧
      examplePath.steps.length ≤ 2 := by
  have h := claim_C5_bfs_paths_minimal exampleGraph (10, 1, 0) examplePath
    exampleGraph_bfs
  refine ⟨h.1, ?_⟩
  have h2 := h.2 examplePath.steps h.1
  simp [examplePath] at h2 ⊢

/-- C8: every cached path terminates at a tile with area 60 or 61 and visits
no tile key twice; consequently every successful transform through a
transformer built like `from_csv` builds it resolves to frame 60 or 61. -/
theorem claim_C8_cache_terminates_global (G : AnchorMap) :
    (∀ k p, lookupPath (precompute_paths_to_global G) k = some p →
      ((p.final_global_tile.1 = 60 ∨ p.final_global_tile.1 = 61) ∧
        (k :: p.steps.map dstKey).Nodup)) ∧
    (∀ map_id x y z gx gy gz a,
      local_to_world_with_global_map (WorldPositionTransformer.ofAnchors G)
        map_id x y z = .ok (gx, gy, gz, a) → a = 60 ∨ a = 61) := by
  have part1 : ∀ k p, lookupPath (precompute_paths_to_global G) k = some p →
      ((p.final_global_tile.1 = 60 ∨ p.final_global_tile.1 = 61) ∧
        (k :: p.steps.map dstKey).Nodup) := by
    intro k p h
    obtain ⟨hng, hbfs⟩ := precompute_lookup_elim h
    obtain ⟨_, _, hglob, _, hnd⟩ := bfs_some_good G k p hbfs
    exact ⟨hglob, hnd hng⟩
  refine ⟨part1, ?_⟩
  intro map_id x y z gx gy gz a h
  simp only [local_to_world_with_global_map] at h
  split at h
  · rename_i harea
    injection h with h'
    have ha : a = (parse_map_id map_id).1 :=
      (congrArg (fun r => r.2.2.2) h').symm
    rw [ha]
    exact harea
  · split at h
    · rename_i anchor hfind
      injection h with h'
      left
      exact (congrArg (fun r => r.2.2.2) h').symm
    · split at h
      · rename_i anchor hfind
        injection h with h'
        right
        exact (congrArg (fun r => r.2.2.2) h').symm
      · split at h
        · rename_i path hlk
          injection h with h'
          have ha : a = path.final_global_tile.1 :=
            (congrArg (fun r => r.2.2.2) h').symm
          rw [ha]
          exact (part1 _ path hlk).1
        · cases h

/-- C8 witness: the cached example path ends at `m60_40_35` and its tile
trace `m10_01 → m10_00 → m60_40_35` has no repeats. -/
theorem claim_C8_witness :
    (examplePath.final_global_tile.1 = 60 ∨
      examplePath.final_global_tile.1 = 61) ∧
      ((10, 1, 0) :: examplePath.steps.map dstKey).Nodup :=
  (claim_C8_cache_terminates_global exampleGraph).1 (10, 1, 0) examplePath
    (by rw [exampleGraph_precompute]; decide)

end ERRoute
